import Mathlib

/-!
Verification of the incremental build/watch engine of the sandstone CLI.

The development shallowly embeds the cache, dependency-graph, module
execution, cache loading, and watch-loop logic of the repository:

* `fileHandler`, `finalizeCache` — the content-cache write decision and
  the end-of-build stale-file pruning (`src/commands/build.ts`,
  `src/build/buildProject.ts`);
* `NodeData`, `DepGraph`, `getAdjacent`, `getDependencies`,
  `getDependsOn`, `merge` — the dependency graph (`src/build/graph.ts`);
* `getNewModules` — the affected-module computation
  (`src/build/buildProject.ts`);
* `runModulesLoop`, `buildPass` — the module-execution loop of a build
  pass (`src/build/buildProject.ts`);
* `loadCacheBuild`, `loadCacheProject` — the persisted-cache loading
  fallback (`src/commands/build.ts`, `src/build/buildProject.ts`);
* `WatchState`, `watchStep` — the watch-loop single-flight scheduler
  (`src/commands/watch.ts`).

Caches (JS plain objects keyed by strings) are modelled as association
lists in insertion order; JS `Set`s are modelled as duplicate-free lists
in insertion order, with `addEdge` modelling `Set.prototype.add`.
-/

namespace Sandstone

/-- A string-keyed association map in insertion order, modelling a JS plain
object (`Record<string, string>`) or `Map`. -/
abbrev AssocMap := List (String × String)

/-- Model of a JS object property assignment `m[k] = v`: overwrite the
value at an existing key in place, otherwise append the new key. -/
def setKey (m : AssocMap) (k v : String) : AssocMap :=
  match m with
  | [] => [(k, v)]
  | (k₀, v₀) :: rest => if k₀ = k then (k, v) :: rest else (k₀, v₀) :: setKey rest k v

/-- The keys of an association map, in insertion order. -/
def mapKeys (m : AssocMap) : List String := m.map (·.1)

/-- Model of `Set.prototype.add` on a JS `Set` of strings represented as
a duplicate-free list in insertion order: adding a present element keeps
the set unchanged, a new element is appended. -/
def addEdge (l : List String) (e : String) : List String :=
  if e ∈ l then l else l ++ [e]

/-- Model of the default `fileHandler` in `_buildProject`
(`src/commands/build.ts`, `src/build/buildProject.ts`): given the hash
function, the previous-generation cache `cache`, the new-generation cache
`newCache` built so far, and a file, it computes `hash (content ++
relativePath)`, records it in the new generation, and decides whether to
physically write the file: the write is skipped exactly when the previous
generation already maps `relativePath` to the same hash.  Returns the
updated new-generation cache and the write decision. -/
def fileHandler (hash : String → String) (cache newCache : AssocMap)
    (relativePath content : String) : AssocMap × Bool :=
  let hashValue := hash (content ++ relativePath)
  let newCache₁ := setKey newCache relativePath hashValue
  if List.lookup relativePath cache = some hashValue then
    (newCache₁, false)
  else
    (newCache₁, true)

/-- Model of the end-of-build cleanup in `_buildProject`
(`src/commands/build.ts` lines 529-543): when the build is not a dry run,
the files whose paths are in the previous-generation cache but not in the
new generation are deleted, and the new generation becomes the persisted
cache; a dry run deletes nothing and keeps the previous cache.  Returns
the list of deleted paths and the persisted cache. -/
def finalizeCache (dry : Bool) (cache newCache : AssocMap) :
    List String × AssocMap :=
  if dry then ([], cache)
  else
    ((mapKeys cache).filter (fun k => !(mapKeys newCache).contains k), newCache)

/-- A node of the dependency graph (`class Node` in `src/build/graph.ts`):
its direct dependency edges and its direct dependent edges, each modelled
as the list of the referenced nodes' names in JS `Set` insertion order. -/
structure NodeData where
  dependencies : List String
  dependsOn : List String
deriving DecidableEq

/-- The dependency graph (`DependencyGraph.nodes`, a JS `Map`): an
association list from node name to node data, in insertion order. -/
abbrev DepGraph := List (String × NodeData)

/-- The names present in the graph's node map, in insertion order. -/
def keys (g : DepGraph) : List String := g.map (·.1)

/-- The adjacency (dependency or dependent) list of a node, selected by
`sel`; a name absent from the map has no edges.  In the source the
traversal is a method of `Node`, so the absent case never arises. -/
def nodeEdges (g : DepGraph) (sel : NodeData → List String) (n : String) : List String :=
  match List.lookup n g with
  | some nd => sel nd
  | none => []

/-- Model of `Node.getDependencies` / `Node.getDependsOn`
(`src/build/graph.ts` lines 191-241), shared between the two edge
directions via `sel`.  `trav` is the set of nodes whose `traversed` flag
is currently set (the call stack of the traversal): each call sets its
node's flag on entry and clears it on exit, so the flag state seen by a
recursive call is exactly `n :: trav`.  A node whose flag is set
short-circuits to the base result.  The `n ∈ keys g` test is vacuous for
the graphs the source builds (every edge references a node of the map);
it lets the recursion be expressed as a well-founded recursion on the
number of untraversed names, which is the termination argument for the
cycle guard. -/
def getAdjacent (g : DepGraph) (sel : NodeData → List String) (trav : List String)
    (n : String) (recursive includeSelf : Bool) : List String :=
  let base := if includeSelf then [n] else []
  if hmem : n ∈ trav then base
  else if hkey : n ∈ keys g then
    if recursive then
      (nodeEdges g sel n).foldl
        (fun acc d => (getAdjacent g sel (n :: trav) d true true).foldl addEdge acc) base
    else base
  else base
termination_by ((keys g).toFinset \ trav.toFinset).card
decreasing_by
  simp only [List.toFinset_cons]
  apply Finset.card_lt_card
  have hsub : (keys g).toFinset \ insert n trav.toFinset ⊆ (keys g).toFinset \ trav.toFinset :=
    Finset.sdiff_subset_sdiff (le_refl _) (Finset.subset_insert n _)
  have hn : n ∈ (keys g).toFinset \ trav.toFinset := by
    simp [List.mem_toFinset, hkey, hmem]
  have hnot : n ∉ (keys g).toFinset \ insert n trav.toFinset := by simp
  exact (Finset.ssubset_iff_of_subset hsub).mpr ⟨n, hn, hnot⟩

/-- `Node.getDependencies`: traversal over the "depends on" edges. -/
def getDependencies (g : DepGraph) (trav : List String) (n : String)
    (recursive includeSelf : Bool) : List String :=
  getAdjacent g (·.dependencies) trav n recursive includeSelf

/-- `Node.getDependsOn`: traversal over the "depended on by" edges. -/
def getDependsOn (g : DepGraph) (trav : List String) (n : String)
    (recursive includeSelf : Bool) : List String :=
  getAdjacent g (·.dependsOn) trav n recursive includeSelf

/-- The two-node cyclic graph of the claim: A depends on B and B depends
on A, with the mirrored dependent edges. -/
def cycleGraph : DepGraph := [("A", ⟨["B"], ["B"]⟩), ("B", ⟨["A"], ["A"]⟩)]

/-- The number of (recursive) dependencies of a node, as used by the sort
comparator of `getNewModules`: the size of
`getDependencies(\x7b recursive: true \x7d)` — `includeSelf` unset. -/
def recDepCount (g : DepGraph) (n : String) : Nat :=
  (getDependencies g [] n true false).length

/-- Model of `getNewModules` (`src/build/buildProject.ts` lines 81-98):
filter the graph's nodes down to the changed ones (`changed` holds the
node names of the changed files), collect each changed node's recursive
dependents including itself into one set (`new Set(flatMap(...))`,
deduplicating in insertion order), and sort ascending by recursive
dependency count.  JS `Array.prototype.sort` is stable; `List.mergeSort`
is the matching stable sort. -/
def getNewModules (g : DepGraph) (changed : List String) : List String :=
  let newModules := (keys g).filter (fun n => changed.contains n)
  let affected := newModules.foldl
    (fun acc n => (getDependsOn g [] n true true).foldl addEdge acc) []
  affected.mergeSort (fun a b => recDepCount g a ≤ recDepCount g b)

/-- The three-node chain of the claim: A depends on B, B depends on C, C
depends on nothing, with the mirrored dependent edges. -/
def chainGraph : DepGraph :=
  [("A", ⟨["B"], []⟩), ("B", ⟨["C"], ["A"]⟩), ("C", ⟨[], ["B"]⟩)]

/-- Model of the edge re-resolution loop inside `DependencyGraph.merge`
(`src/build/graph.ts`): `set.clear()` followed by adding
`this.getNode(name)` for each edge name.  `getNode` throws when the name
is not among `ks`; the loop then stops with the set holding only the
edges resolved so far.  Returns the rebuilt set and whether the loop
completed without throwing. -/
def resolveEdges (ks acc : List String) : List String → List String × Bool
  | [] => (acc, true)
  | e :: rest => if e ∈ ks then resolveEdges ks (addEdge acc e) rest else (acc, false)

/-- Phase 1 of `merge` for one node present in both graphs: overwrite the
node's edge sets with the new node's edges re-resolved against this
graph's names.  A `getNode` miss while rebuilding the dependency set is
swallowed by the `catch`, leaving the node with the partially rebuilt
dependency set and its old dependent set; a miss while rebuilding the
dependent set leaves the partially rebuilt dependent set. -/
def phase1Node (ks : List String) (old nw : NodeData) : NodeData :=
  match resolveEdges ks [] nw.dependencies with
  | (deps, true) => ⟨deps, (resolveEdges ks [] nw.dependsOn).1⟩
  | (deps, false) => ⟨deps, old.dependsOn⟩

/-- Phase 1 of `merge` over the whole node map: every node also present
in the partial graph `p` gets its edges overwritten, the others are left
untouched. -/
def mergeNodes (g p : DepGraph) : DepGraph :=
  g.map (fun entry =>
    match List.lookup entry.1 p with
    | none => entry
    | some nw => (entry.1, phase1Node (keys g) entry.2 nw))

/-- Phase 2 of `merge`: the nodes of the partial graph that this graph
does not have yet, appended in the partial graph's order. -/
def newEntries (g p : DepGraph) : DepGraph :=
  p.filter (fun e => !(keys g).contains e.1)

/-- Model of `DependencyGraph.merge` (`src/build/graph.ts` lines 82-130).
Phase 1 overwrites the edges of shared nodes (`getNode` misses are caught
per node), phase 2 appends the nodes only the partial graph has, and
phase 3 rebuilds each newly added node's edge sets through `getNode` on
the merged map — there a miss is not caught, the exception escapes
`merge`, modelled as `none`.  On success the result is the mutated
receiving graph. -/
def merge (g p : DepGraph) : Option DepGraph :=
  let g₁ := mergeNodes g p
  let added := newEntries g p
  let ks₂ := keys (g₁ ++ added)
  let resolved := added.map (fun e =>
    (e.1, resolveEdges ks₂ [] e.2.dependencies, resolveEdges ks₂ [] e.2.dependsOn))
  if resolved.all (fun r => r.2.1.2 && r.2.2.2) then
    some (g₁ ++ resolved.map (fun r => (r.1, ⟨r.2.1.1, r.2.2.1⟩)))
  else none

/-- Well-formedness of a graph: every edge references a name present in
the node map.  Graphs built by the `DependencyGraph` constructor satisfy
this, because the constructor resolves every edge through `getNode`. -/
def wellFormedB (g : DepGraph) : Bool :=
  g.all (fun e => e.2.dependencies.all ((keys g).contains) &&
                  e.2.dependsOn.all ((keys g).contains))

/-- The condition under which `merge` is idempotent: every node shared
between the two graphs has all its partial-graph edges resolvable inside
the receiving graph's original node map. -/
def sharedOKB (g p : DepGraph) : Bool :=
  p.all (fun e => !(keys g).contains e.1 ||
    (e.2.dependencies.all ((keys g).contains) &&
     e.2.dependsOn.all ((keys g).contains)))

/-- The per-name action of phase 1: what a node's data becomes under
`mergeNodes g p`. -/
def phase1At (g p : DepGraph) (k : String) (nd : NodeData) : NodeData :=
  match List.lookup k p with
  | none => nd
  | some nw => phase1Node (keys g) nd nw

/-- The node names of the merged graph: the receiving graph's names
followed by the names only the partial graph has. -/
def ksMerge (g p : DepGraph) : List String := keys g ++ keys (newEntries g p)

/-- Closed form of the graph a successful `merge` produces. -/
def mergedOf (g p : DepGraph) : DepGraph :=
  mergeNodes g p ++ (newEntries g p).map (fun e =>
    (e.1, ⟨(resolveEdges (ksMerge g p) [] e.2.dependencies).1,
           (resolveEdges (ksMerge g p) [] e.2.dependsOn).1⟩))

/-- The scheduling state of the watch loop (`watchCommand` in
`src/commands/watch.ts`): the `alreadyBuilding` and `needRebuild` flags,
the accumulated `pendingChanges` (tracked changes, deduplicated by path —
modelled by their paths), and the log of started builds, each recorded
with the change set it was triggered with. -/
structure WatchState where
  alreadyBuilding : Bool
  needRebuild : Bool
  pendingChanges : List String
  builds : List (List String)
deriving DecidableEq

/-- The events driving the watch loop: a (debounced) change burst
delivered to `onFilesChange`, or the completion of the build currently
in flight. -/
inductive WatchEvent
  | filesChange (changes : List String)
  | buildDone

/-- One step of the watch loop (`onFilesChange` in
`src/commands/watch.ts`).  A change burst during a build only sets
`needRebuild` and accumulates the changes into `pendingChanges`,
deduplicating by path; otherwise it starts a build with the burst.  When
the in-flight build completes with `needRebuild` set, the flag is
cleared, the accumulated pending changes are taken and cleared, and
`onFilesChange` is re-entered with them, starting exactly one build. -/
def watchStep (s : WatchState) (e : WatchEvent) : WatchState :=
  match e with
  | .filesChange changes =>
    if s.alreadyBuilding then
      { s with needRebuild := true,
               pendingChanges := changes.foldl addEdge s.pendingChanges }
    else
      { s with alreadyBuilding := true, builds := s.builds ++ [changes] }
  | .buildDone =>
    if s.alreadyBuilding then
      if s.needRebuild then
        { alreadyBuilding := true, needRebuild := false, pendingChanges := [],
          builds := s.builds ++ [s.pendingChanges] }
      else { s with alreadyBuilding := false }
    else s

/-- Result of the module-execution phase of one build pass. -/
structure PassResult where
  error : Bool
  executed : List String
  saved : Bool
deriving DecidableEq

/-- Model of the module loop of `_buildProject`
(`src/build/buildProject.ts` lines 334-367): the sorted modules are
required in turn; a module that throws is caught, `logError` records its
message and stack, the `error` flag is set, and the loop moves on to the
next module.  `throws m = true` means requiring module `m` throws. -/
def runModulesLoop (throws : String → Bool) :
    List String → Bool → List String → Bool × List String
  | [], err, executed => (err, executed)
  | m :: rest, err, executed =>
      runModulesLoop throws rest (err || throws m) (executed ++ [m])

/-- A build pass over the sorted affected modules: run the module loop,
then `if (error) return` makes the saving phase run exactly when no
module failed. -/
def buildPass (throws : String → Bool) (modules : List String) : PassResult :=
  let r := runModulesLoop throws modules false []
  ⟨r.1, r.2, !r.1⟩

/-- The observable states of the persisted cache file. -/
inductive CacheFileState
  | missing
  | unreadable
  | content (s : String)

/-- Model of the cache loading of `_buildProject`
(`src/commands/build.ts` lines 309-318).  `parse` models `JSON.parse`,
with `none` meaning it throws.  The result is the in-memory `cache`
after the block: a missing or unreadable file and a parse error land in
the `catch` and set the empty cache, but an existing empty file makes
`fileRead` falsy, skips both the assignment and the `catch`, and leaves
`cache` undefined — modelled as `none` — so the first
`cache[relativePath]` lookup of the save phase throws and the build
fails. -/
def loadCacheBuild (parse : String → Option AssocMap) :
    CacheFileState → Option AssocMap
  | .missing => some []
  | .unreadable => some []
  | .content s =>
    if s = "" then none
    else
      match parse s with
      | some c => some c
      | none => some []

/-- Model of the cache loading of the older `_buildProject`
(`src/build/buildProject.ts` lines 376-389): `oldCache` stays undefined
on a missing, unreadable, empty or unparseable file, and `cache` then
falls back to the empty object. -/
def loadCacheProject (parse : String → Option AssocMap) :
    CacheFileState → Option AssocMap
  | .missing => some []
  | .unreadable => some []
  | .content s =>
    if s = "" then some []
    else
      match parse s with
      | some c => some c
      | none => some []

theorem lookup_setKey_self (m : AssocMap) (k v : String) :
    List.lookup k (setKey m k v) = some v := by
  induction m with
  | nil => simp [setKey, List.lookup]
  | cons hd tl ih =>
    obtain ⟨k₀, v₀⟩ := hd
    by_cases h : k₀ = k
    · simp [setKey, h, List.lookup]
    · simp only [setKey, if_neg h, List.lookup]
      have : (k == k₀) = false := by
        simp [beq_iff_eq]
        exact fun hc => h hc.symm
      simp [this, ih]

/-- C1: the cache write decision records `hash (content ++ relativePath)`
under `relativePath` in the new-generation cache, and performs the
physical write exactly when the previous generation's entry for
`relativePath` is not that hash; when the previous generation maps
`relativePath` to exactly that hash the write is skipped. -/
theorem fileHandler_write_decision (hash : String → String)
    (cache newCache : AssocMap) (relativePath content : String) :
    List.lookup relativePath (fileHandler hash cache newCache relativePath content).1
      = some (hash (content ++ relativePath)) ∧
    ((fileHandler hash cache newCache relativePath content).2 = true ↔
      List.lookup relativePath cache ≠ some (hash (content ++ relativePath))) ∧
    ((fileHandler hash cache newCache relativePath content).2 = false ↔
      List.lookup relativePath cache = some (hash (content ++ relativePath))) := by
  unfold fileHandler
  by_cases h : List.lookup relativePath cache = some (hash (content ++ relativePath))
  · simp [h, lookup_setKey_self]
  · simp [h, lookup_setKey_self]

/-- Closed-form check of `fileHandler_write_decision` at a concrete input. -/
theorem fileHandler_write_decision_witness :
    List.lookup "a" (fileHandler (fun s => s) [("a", "ca")] [] "a" "c").1
      = some "ca" ∧
    ((fileHandler (fun s => s) [("a", "ca")] [] "a" "c").2 = true ↔
      List.lookup "a" [(("a" : String), ("ca" : String))] ≠ some "ca") ∧
    ((fileHandler (fun s => s) [("a", "ca")] [] "a" "c").2 = false ↔
      List.lookup "a" [(("a" : String), ("ca" : String))] = some "ca") :=
  fileHandler_write_decision (fun s => s) [("a", "ca")] [] "a" "c"

/-- C2: at the end of a successful non-dry build, the set of deleted paths
is exactly the set of paths present in the previous-generation cache but
absent from the new generation, and the persisted cache equals the new
generation; in particular previous generation `{a:h1, b:h2}` with new
generation `{a:h1}` deletes exactly `b` and persists `{a:h1}`. -/
theorem finalizeCache_deletes_stale (dry : Bool) (cache newCache : AssocMap)
    (hdry : dry = false) :
    (∀ k, k ∈ (finalizeCache dry cache newCache).1 ↔
        k ∈ mapKeys cache ∧ k ∉ mapKeys newCache) ∧
    (finalizeCache dry cache newCache).2 = newCache ∧
    (finalizeCache false [("a", "h1"), ("b", "h2")] [("a", "h1")]
      = (["b"], [("a", "h1")])) := by
  subst hdry
  refine ⟨fun k => ?_, by simp [finalizeCache], by decide⟩
  simp [finalizeCache, List.mem_filter]

/-- Closed-form check of `finalizeCache_deletes_stale` at a concrete input. -/
theorem finalizeCache_deletes_stale_witness :
    (∀ k, k ∈ (finalizeCache false [("a", "h1"), ("b", "h2")] [("a", "h1")]).1 ↔
        k ∈ mapKeys [("a", "h1"), ("b", "h2")] ∧ k ∉ mapKeys [("a", "h1")]) ∧
    (finalizeCache false [("a", "h1"), ("b", "h2")] [("a", "h1")]).2 = [("a", "h1")] ∧
    (finalizeCache false [("a", "h1"), ("b", "h2")] [("a", "h1")]
      = (["b"], [("a", "h1")])) :=
  finalizeCache_deletes_stale false [("a", "h1"), ("b", "h2")] [("a", "h1")] rfl

theorem getAdjacent_visited (g : DepGraph) (sel : NodeData → List String)
    (trav : List String) (n : String) (r i : Bool) (h : n ∈ trav) :
    getAdjacent g sel trav n r i = if i then [n] else [] := by
  rw [getAdjacent.eq_def]
  simp [h]

theorem getAdjacent_nonrec (g : DepGraph) (sel : NodeData → List String)
    (trav : List String) (n : String) (i : Bool) :
    getAdjacent g sel trav n false i = if i then [n] else [] := by
  rw [getAdjacent.eq_def]
  by_cases h : n ∈ trav <;> by_cases hk : n ∈ keys g <;> simp [h, hk]

theorem getAdjacent_step (g : DepGraph) (sel : NodeData → List String)
    (trav : List String) (n : String) (i : Bool)
    (h1 : n ∉ trav) (h2 : n ∈ keys g) :
    getAdjacent g sel trav n true i =
      (nodeEdges g sel n).foldl
        (fun acc d => (getAdjacent g sel (n :: trav) d true true).foldl addEdge acc)
        (if i then [n] else []) := by
  rw [getAdjacent.eq_def]
  simp [h1, h2]

/-- C10: with `recursive` false, `getDependencies` and `getDependsOn`
ignore the node's edges entirely and return the singleton of the node
when `includeSelf` is true and the empty set otherwise, whatever the
graph and the state of the `traversed` flags. -/
theorem nonrecursive_ignores_edges (g : DepGraph) (trav : List String)
    (n : String) (i : Bool) :
    getDependencies g trav n false i = (if i then [n] else []) ∧
    getDependsOn g trav n false i = (if i then [n] else []) :=
  ⟨getAdjacent_nonrec g (·.dependencies) trav n i,
   getAdjacent_nonrec g (·.dependsOn) trav n i⟩

/-- C4: the recursive traversals are cycle-safe.  A re-entrant call into a
node whose `traversed` flag is set short-circuits to the self-only (or
empty) set, and on the two-node cycle A→B→A both recursive traversals
return a set contained in the two-element set of A and B.  Termination on every graph,
cyclic ones included, is witnessed by `getAdjacent` itself, which is a
well-founded recursion on the number of untraversed node names. -/
theorem traversal_cycle_guard (g : DepGraph) (trav : List String) (n : String)
    (r i : Bool) (h : n ∈ trav) :
    (getDependencies g trav n r i = (if i then [n] else []) ∧
     getDependsOn g trav n r i = (if i then [n] else [])) ∧
    (∀ x ∈ getDependencies cycleGraph [] "A" true false, x ∈ ["A", "B"]) ∧
    (∀ x ∈ getDependsOn cycleGraph [] "A" true false, x ∈ ["A", "B"]) := by
  have hdep : getDependencies cycleGraph [] "A" true false = ["B", "A"] := by
    simp [getDependencies, getAdjacent_step, getAdjacent_visited, cycleGraph,
      keys, nodeEdges, addEdge, List.lookup]
  have hdon : getDependsOn cycleGraph [] "A" true false = ["B", "A"] := by
    simp [getDependsOn, getAdjacent_step, getAdjacent_visited, cycleGraph,
      keys, nodeEdges, addEdge, List.lookup]
  refine ⟨⟨getAdjacent_visited g (·.dependencies) trav n r i h,
           getAdjacent_visited g (·.dependsOn) trav n r i h⟩, ?_, ?_⟩
  · rw [hdep]; decide
  · rw [hdon]; decide

theorem mem_addEdge (l : List String) (e x : String) :
    x ∈ addEdge l e ↔ x ∈ l ∨ x = e := by
  by_cases h : e ∈ l
  · simp only [addEdge, if_pos h]
    exact ⟨Or.inl, fun hx => hx.elim id (fun hxe => hxe ▸ h)⟩
  · simp [addEdge, h]

theorem mem_foldl_addEdge (l acc : List String) (x : String) :
    x ∈ l.foldl addEdge acc ↔ x ∈ acc ∨ x ∈ l := by
  induction l generalizing acc with
  | nil => simp
  | cons e rest ih => simp [List.foldl_cons, ih, mem_addEdge, or_assoc]

theorem mem_foldl_collect (f : String → List String) (ms acc : List String) (x : String) :
    x ∈ ms.foldl (fun acc n => (f n).foldl addEdge acc) acc ↔
      x ∈ acc ∨ ∃ n ∈ ms, x ∈ f n := by
  induction ms generalizing acc with
  | nil => simp
  | cons m rest ih => simp [List.foldl_cons, ih, mem_foldl_addEdge, or_assoc]

theorem getDependsOn_chain_C :
    getDependsOn chainGraph [] "C" true true = ["C", "B", "A"] := by
  simp [getDependsOn, getAdjacent_step, getAdjacent_visited, chainGraph,
    keys, nodeEdges, addEdge, List.lookup]

theorem getNewModules_chain : getNewModules chainGraph ["C"] = ["C", "B", "A"] := by
  have hA : recDepCount chainGraph "A" = 2 := by
    simp [recDepCount, getDependencies, getAdjacent_step, getAdjacent_visited,
      chainGraph, keys, nodeEdges, addEdge, List.lookup]
  have hB : recDepCount chainGraph "B" = 1 := by
    simp [recDepCount, getDependencies, getAdjacent_step, getAdjacent_visited,
      chainGraph, keys, nodeEdges, addEdge, List.lookup]
  have hC : recDepCount chainGraph "C" = 0 := by
    simp [recDepCount, getDependencies, getAdjacent_step, getAdjacent_visited,
      chainGraph, keys, nodeEdges, addEdge, List.lookup]
  have haff : getNewModules chainGraph ["C"]
      = (["C", "B", "A"] : List String).mergeSort
          (fun a b => recDepCount chainGraph a ≤ recDepCount chainGraph b) := by
    simp only [getNewModules]
    congr 1
    simp [getDependsOn, getAdjacent_step, getAdjacent_visited, chainGraph,
      keys, nodeEdges, addEdge, List.lookup]
  rw [haff]
  simp [List.mergeSort, List.merge, hA, hB, hC]

/-- C3: the affected-module computation returns exactly the changed
modules together with all their transitive dependents, sorted in
ascending order of recursive dependency count; on the chain where A
depends on B and B depends on C, a change to C yields exactly the order
C, B, A. -/
theorem getNewModules_spec (g : DepGraph) (changed : List String) :
    (∀ a, a ∈ getNewModules g changed ↔
        ∃ n, n ∈ keys g ∧ n ∈ changed ∧ a ∈ getDependsOn g [] n true true) ∧
    List.Pairwise (fun a b => recDepCount g a ≤ recDepCount g b)
      (getNewModules g changed) ∧
    getNewModules chainGraph ["C"] = ["C", "B", "A"] := by
  refine ⟨fun a => ?_, ?_, ?_⟩
  · simp only [getNewModules, List.mem_mergeSort,
      mem_foldl_collect (fun n => getDependsOn g [] n true true)]
    simp [List.mem_filter, and_assoc]
  · have hs := @List.sorted_mergeSort String
      (fun a b => decide (recDepCount g a ≤ recDepCount g b))
      (fun a b c hab hbc => by
        simp only [decide_eq_true_eq] at *
        exact Nat.le_trans hab hbc)
      (fun a b => by
        simp only [Bool.or_eq_true, decide_eq_true_eq]
        exact Nat.le_total _ _)
      (((keys g).filter (fun n => changed.contains n)).foldl
        (fun acc n => (getDependsOn g [] n true true).foldl addEdge acc) [])
    exact List.Pairwise.imp (fun h => of_decide_eq_true h) hs
  · exact getNewModules_chain

theorem mergeNodes_eq_map (g p : DepGraph) :
    mergeNodes g p = g.map (fun e => (e.1, phase1At g p e.1 e.2)) := by
  unfold mergeNodes
  apply List.map_congr_left
  intro e _
  cases h : List.lookup e.1 p <;> simp [phase1At, h]

theorem lookup_map_pair (f : String → NodeData → NodeData) (g : DepGraph) (n : String) :
    List.lookup n (g.map (fun e => (e.1, f e.1 e.2))) = (List.lookup n g).map (f n) := by
  induction g with
  | nil => rfl
  | cons e rest ih =>
    obtain ⟨k, v⟩ := e
    simp only [List.map_cons, List.lookup]
    cases hb : (n == k) with
    | true =>
      have : n = k := beq_iff_eq.mp hb
      subst this
      rfl
    | false => simpa using ih

theorem keys_mergeNodes (g p : DepGraph) : keys (mergeNodes g p) = keys g := by
  rw [mergeNodes_eq_map]
  simp [keys]

theorem keys_append (g₁ g₂ : DepGraph) : keys (g₁ ++ g₂) = keys g₁ ++ keys g₂ := by
  simp [keys]

theorem lookup_mem (l : DepGraph) (n : String) (v : NodeData)
    (h : List.lookup n l = some v) : (n, v) ∈ l := by
  induction l with
  | nil => simp [List.lookup] at h
  | cons e rest ih =>
    obtain ⟨k, v₀⟩ := e
    simp only [List.lookup] at h
    split at h
    · next heq =>
      injection h with hv
      subst hv
      have hnk : n = k := beq_iff_eq.mp heq
      subst hnk
      exact List.mem_cons_self _ _
    · exact List.mem_cons_of_mem _ (ih h)

theorem lookup_of_mem_nodup (l : DepGraph) (e : String × NodeData)
    (he : e ∈ l) (hnd : (keys l).Nodup) : List.lookup e.1 l = some e.2 := by
  induction l with
  | nil => cases he
  | cons hd rest ih =>
    have hnd₂ : (keys rest).Nodup := by
      simpa [keys] using hnd.of_cons
    rcases List.mem_cons.mp he with rfl | hmem
    · simp [List.lookup]
    · obtain ⟨k, v₀⟩ := hd
      have hknot : k ∉ keys rest := by
        have hkcons : (k :: keys rest).Nodup := by simpa [keys] using hnd
        exact (List.nodup_cons.mp hkcons).1
      have hein : e.1 ∈ keys rest := by
        simpa [keys] using List.mem_map_of_mem (·.1) hmem
      have hne : e.1 ≠ k := fun hc => hknot (hc ▸ hein)
      have hb : (e.1 == k) = false := beq_eq_false_iff_ne.mpr hne
      simp only [List.lookup, hb]
      exact ih hmem hnd₂

theorem resolveEdges_subset (ks : List String) (edges : List String) :
    ∀ acc x, x ∈ (resolveEdges ks acc edges).1 → x ∈ acc ∨ x ∈ ks := by
  induction edges with
  | nil => intro acc x h; exact Or.inl (by simpa [resolveEdges] using h)
  | cons e rest ih =>
    intro acc x h
    simp only [resolveEdges] at h
    split at h
    · next hin =>
      rcases ih _ _ h with h₁ | h₁
      · rcases (mem_addEdge acc e x).mp h₁ with h₂ | h₂
        · exact Or.inl h₂
        · exact Or.inr (h₂ ▸ hin)
      · exact Or.inr h₁
    · exact Or.inl h

theorem resolveEdges_success (ks : List String) (edges : List String) :
    ∀ acc, (∀ e ∈ edges, e ∈ ks) →
      resolveEdges ks acc edges = (edges.foldl addEdge acc, true) := by
  induction edges with
  | nil => intro acc _; simp [resolveEdges]
  | cons e rest ih =>
    intro acc h
    have he : e ∈ ks := h e (List.mem_cons_self _ _)
    simp [resolveEdges, he, List.foldl_cons,
      ih _ (fun d hd => h d (List.mem_cons_of_mem _ hd))]

/-- C5: merging a partial graph whose only node is X into a graph whose
node map contains X succeeds, updates only X's entry (its edge sets are
overwritten with the partial graph's, re-resolved in place), leaves every
other node's entry — hence its dependency and dependent edge sets —
unchanged, and removes no node of the receiving graph. -/
theorem merge_frame (g : DepGraph) (nd : NodeData) (x : String)
    (hx : x ∈ keys g) :
    ∃ g₂, merge g [(x, nd)] = some g₂ ∧ keys g₂ = keys g ∧
      (∀ n, n ≠ x → List.lookup n g₂ = List.lookup n g) ∧
      List.lookup x g₂ = (List.lookup x g).map
        (fun old => phase1Node (keys g) old nd) := by
  have hadded : newEntries g [(x, nd)] = [] := by
    simp [newEntries, hx]
  refine ⟨mergeNodes g [(x, nd)], ?_, keys_mergeNodes g [(x, nd)], ?_, ?_⟩
  · unfold merge
    simp [hadded]
  · intro n hn
    rw [mergeNodes_eq_map, lookup_map_pair]
    have hb : (n == x) = false := beq_eq_false_iff_ne.mpr hn
    cases hlk : List.lookup n g <;> simp [phase1At, List.lookup, hb]
  · rw [mergeNodes_eq_map, lookup_map_pair]
    cases hlk : List.lookup x g <;> simp [phase1At, List.lookup]

/-- Closed-form check of `merge_frame` at a concrete input. -/
theorem merge_frame_witness :
    ∃ g₂, merge [("X", ⟨[], []⟩), ("Y", ⟨["X"], []⟩), ("Z", ⟨[], []⟩)]
        [("X", ⟨["X"], []⟩)] = some g₂ ∧
      keys g₂ = keys [("X", ⟨[], []⟩), ("Y", ⟨["X"], []⟩), ("Z", ⟨[], []⟩)] ∧
      (∀ n, n ≠ "X" →
        List.lookup n g₂
          = List.lookup n [("X", ⟨[], []⟩), ("Y", ⟨["X"], []⟩), ("Z", ⟨[], []⟩)]) ∧
      List.lookup "X" g₂
        = (List.lookup "X" [("X", ⟨[], []⟩), ("Y", ⟨["X"], []⟩), ("Z", ⟨[], []⟩)]).map
            (fun old =>
              phase1Node (keys [("X", ⟨[], []⟩), ("Y", ⟨["X"], []⟩), ("Z", ⟨[], []⟩)])
                old ⟨["X"], []⟩) :=
  merge_frame [("X", ⟨[], []⟩), ("Y", ⟨["X"], []⟩), ("Z", ⟨[], []⟩)] ⟨["X"], []⟩ "X"
    (by decide)

theorem wellFormedB_iff (g : DepGraph) :
    wellFormedB g = true ↔ ∀ e ∈ g, (∀ d ∈ e.2.dependencies, d ∈ keys g) ∧
      (∀ d ∈ e.2.dependsOn, d ∈ keys g) := by
  simp [wellFormedB, List.all_eq_true]

theorem sharedOKB_iff (g p : DepGraph) :
    sharedOKB g p = true ↔ ∀ e ∈ p, e.1 ∈ keys g →
      (∀ d ∈ e.2.dependencies, d ∈ keys g) ∧
      (∀ d ∈ e.2.dependsOn, d ∈ keys g) := by
  simp [sharedOKB, List.all_eq_true, or_iff_not_imp_left]

theorem phase1At_none (g p : DepGraph) (k : String) (v : NodeData)
    (hlkp : List.lookup k p = none) : phase1At g p k v = v := by
  simp [phase1At, hlkp]

theorem phase1At_resolved (g p : DepGraph) (k : String) (v nw : NodeData)
    (hlkp : List.lookup k p = some nw)
    (hdep : ∀ d ∈ nw.dependencies, d ∈ keys g)
    (hdon : ∀ d ∈ nw.dependsOn, d ∈ keys g) :
    phase1At g p k v
      = ⟨nw.dependencies.foldl addEdge [], nw.dependsOn.foldl addEdge []⟩ := by
  simp [phase1At, hlkp, phase1Node,
    resolveEdges_success (keys g) nw.dependencies [] hdep,
    resolveEdges_success (keys g) nw.dependsOn [] hdon]

theorem merge_eq_some (g p g₂ : DepGraph) (hm : merge g p = some g₂) :
    g₂ = mergedOf g p := by
  simp only [merge] at hm
  split at hm
  · injection hm with h
    rw [← h, mergedOf, List.map_map]
    have hks : keys (mergeNodes g p ++ newEntries g p) = ksMerge g p := by
      rw [keys_append, keys_mergeNodes, ksMerge]
    rw [hks]
    rfl
  · cases hm

theorem keys_mergedOf (g p : DepGraph) : keys (mergedOf g p) = ksMerge g p := by
  rw [mergedOf, keys_append, keys_mergeNodes, ksMerge]
  congr 1
  rw [keys, keys, List.map_map]
  rfl

theorem mem_keys (g : DepGraph) (e : String × NodeData) (he : e ∈ g) :
    e.1 ∈ keys g := List.mem_map_of_mem (·.1) he

theorem mergedOf_wellFormed (g p : DepGraph) (hwg : wellFormedB g = true) :
    wellFormedB (mergedOf g p) = true := by
  rw [wellFormedB_iff]
  intro e he
  rw [keys_mergedOf]
  rcases List.mem_append.mp he with he₁ | he₁
  · rw [mergeNodes_eq_map] at he₁
    obtain ⟨e₀, he₀, rfl⟩ := List.mem_map.mp he₁
    have hwge := (wellFormedB_iff g).mp hwg e₀ he₀
    cases hlkp : List.lookup e₀.1 p with
    | none =>
      rw [phase1At_none g p e₀.1 e₀.2 hlkp]
      exact ⟨fun d hd => List.mem_append_left _ (hwge.1 d hd),
             fun d hd => List.mem_append_left _ (hwge.2 d hd)⟩
    | some nw =>
      simp only [phase1At, hlkp, phase1Node]
      cases hres : resolveEdges (keys g) [] nw.dependencies with
      | mk deps ok =>
        have hdeps : ∀ d ∈ deps, d ∈ keys g := by
          intro d hd
          have := resolveEdges_subset (keys g) nw.dependencies [] d (by rw [hres]; exact hd)
          simpa using this
        cases ok with
        | true =>
          refine ⟨fun d hd => List.mem_append_left _ (hdeps d hd), fun d hd => ?_⟩
          have := resolveEdges_subset (keys g) nw.dependsOn [] d hd
          exact List.mem_append_left _ (by simpa using this)
        | false =>
          exact ⟨fun d hd => List.mem_append_left _ (hdeps d hd),
                 fun d hd => List.mem_append_left _ (hwge.2 d hd)⟩
  · obtain ⟨e₀, he₀, rfl⟩ := List.mem_map.mp he₁
    constructor
    · intro d hd
      have := resolveEdges_subset (ksMerge g p) e₀.2.dependencies [] d hd
      simpa using this
    · intro d hd
      have := resolveEdges_subset (ksMerge g p) e₀.2.dependsOn [] d hd
      simpa using this

theorem mergedOf_idem (g p : DepGraph) (hwp : wellFormedB p = true)
    (hpnd : (keys p).Nodup) (hsh : sharedOKB g p = true) :
    merge (mergedOf g p) p = some (mergedOf g p) := by
  have hkeys : keys (mergedOf g p) = ksMerge g p := keys_mergedOf g p
  have hsubp : ∀ k ∈ keys p, k ∈ ksMerge g p := by
    intro k hk
    obtain ⟨e, he, rfl⟩ := List.mem_map.mp hk
    by_cases hkg : e.1 ∈ keys g
    · exact List.mem_append_left _ hkg
    · have hnew : e ∈ newEntries g p := by
        rw [newEntries, List.mem_filter]
        exact ⟨he, by simp [hkg]⟩
      exact List.mem_append_right _ (mem_keys _ e hnew)
  have hadded : newEntries (mergedOf g p) p = [] := by
    rw [newEntries, List.filter_eq_nil_iff]
    intro e he
    simp only [Bool.not_eq_true', Bool.not_eq_false]
    have : e.1 ∈ keys (mergedOf g p) := by
      rw [hkeys]
      exact hsubp e.1 (mem_keys p e he)
    simpa using this
  simp only [merge, hadded, List.map_nil, List.all_nil, if_true, List.append_nil]
  congr 1
  rw [mergeNodes_eq_map]
  conv_rhs => rw [← List.map_id (mergedOf g p)]
  apply List.map_congr_left
  intro e he
  rcases List.mem_append.mp he with he₁ | he₁
  · rw [mergeNodes_eq_map] at he₁
    obtain ⟨e₀, he₀, rfl⟩ := List.mem_map.mp he₁
    cases hlkp : List.lookup e₀.1 p with
    | none =>
      simp [phase1At_none _ p _ _ hlkp]
    | some nw =>
      have hkg : e₀.1 ∈ keys g := mem_keys g e₀ he₀
      have hmemp : (e₀.1, nw) ∈ p := lookup_mem p e₀.1 nw hlkp
      have hshe := (sharedOKB_iff g p).mp hsh (e₀.1, nw) hmemp hkg
      have h1 : phase1At g p e₀.1 e₀.2
          = ⟨nw.dependencies.foldl addEdge [], nw.dependsOn.foldl addEdge []⟩ :=
        phase1At_resolved g p e₀.1 e₀.2 nw hlkp hshe.1 hshe.2
      have h2 : phase1At (mergedOf g p) p e₀.1 (phase1At g p e₀.1 e₀.2)
          = ⟨nw.dependencies.foldl addEdge [], nw.dependsOn.foldl addEdge []⟩ :=
        phase1At_resolved (mergedOf g p) p e₀.1 _ nw hlkp
          (fun d hd => by rw [hkeys]; exact List.mem_append_left _ (hshe.1 d hd))
          (fun d hd => by rw [hkeys]; exact List.mem_append_left _ (hshe.2 d hd))
      show (e₀.1, phase1At (mergedOf g p) p e₀.1 (phase1At g p e₀.1 e₀.2))
          = id (e₀.1, phase1At g p e₀.1 e₀.2)
      rw [h2, h1]
      rfl
  · obtain ⟨e₀, he₀m, rfl⟩ := List.mem_map.mp he₁
    have he₀p : e₀ ∈ p := (List.mem_filter.mp he₀m).1
    have hwpe := (wellFormedB_iff p).mp hwp e₀ he₀p
    have hdep₂ : ∀ d ∈ e₀.2.dependencies, d ∈ ksMerge g p :=
      fun d hd => hsubp d (hwpe.1 d hd)
    have hdon₂ : ∀ d ∈ e₀.2.dependsOn, d ∈ ksMerge g p :=
      fun d hd => hsubp d (hwpe.2 d hd)
    have hlkp : List.lookup e₀.1 p = some e₀.2 := lookup_of_mem_nodup p e₀ he₀p hpnd
    have hval : (⟨(resolveEdges (ksMerge g p) [] e₀.2.dependencies).1,
                 (resolveEdges (ksMerge g p) [] e₀.2.dependsOn).1⟩ : NodeData)
        = ⟨e₀.2.dependencies.foldl addEdge [], e₀.2.dependsOn.foldl addEdge []⟩ := by
      rw [resolveEdges_success (ksMerge g p) e₀.2.dependencies [] hdep₂,
          resolveEdges_success (ksMerge g p) e₀.2.dependsOn [] hdon₂]
    have h2 : phase1At (mergedOf g p) p e₀.1
          (⟨(resolveEdges (ksMerge g p) [] e₀.2.dependencies).1,
            (resolveEdges (ksMerge g p) [] e₀.2.dependsOn).1⟩ : NodeData)
        = ⟨e₀.2.dependencies.foldl addEdge [], e₀.2.dependsOn.foldl addEdge []⟩ :=
      phase1At_resolved (mergedOf g p) p e₀.1 _ e₀.2 hlkp
        (fun d hd => by rw [hkeys]; exact hdep₂ d hd)
        (fun d hd => by rw [hkeys]; exact hdon₂ d hd)
    show (e₀.1, phase1At (mergedOf g p) p e₀.1
          (⟨(resolveEdges (ksMerge g p) [] e₀.2.dependencies).1,
            (resolveEdges (ksMerge g p) [] e₀.2.dependsOn).1⟩ : NodeData))
        = id (e₀.1,
          (⟨(resolveEdges (ksMerge g p) [] e₀.2.dependencies).1,
            (resolveEdges (ksMerge g p) [] e₀.2.dependsOn).1⟩ : NodeData))
    rw [h2, hval]
    rfl

/-- C6 counterexample: merge is not idempotent.  The receiving graph has
nodes X, Y, Z (X depends on Y); the partial graph has X depending on a
new node W.  During the first merge, phase 1 resolves X's new edges
against the receiving map before W is added, so `getNode("W")` throws,
the `catch` swallows it, and X is left with a cleared dependency set.
The second merge finds W present and gives X the dependency on W, so the
result of merging twice differs from merging once. -/
theorem merge_not_idempotent_cex :
    (merge [("X", ⟨["Y"], []⟩), ("Y", ⟨[], ["X"]⟩), ("Z", ⟨[], []⟩)]
        [("X", ⟨["W"], []⟩), ("W", ⟨[], ["X"]⟩)]).bind
      (fun g₂ => merge g₂ [("X", ⟨["W"], []⟩), ("W", ⟨[], ["X"]⟩)])
    ≠ merge [("X", ⟨["Y"], []⟩), ("Y", ⟨[], ["X"]⟩), ("Z", ⟨[], []⟩)]
        [("X", ⟨["W"], []⟩), ("W", ⟨[], ["X"]⟩)] := by
  decide

/-- C6 (amended): a successful merge of well-formed graphs never leaves
dangling edges — every edge of the merged graph references a node present
in the merged node map; and provided every node shared between the two
graphs has its partial-graph edges inside the receiving graph's original
node map, merging the same partial graph a second time returns the merged
graph unchanged.  Without that proviso idempotence fails
(`merge_not_idempotent_cex`). -/
theorem merge_clean_and_conditional_idempotent (g p g₂ : DepGraph)
    (hwg : wellFormedB g = true) (hwp : wellFormedB p = true)
    (hpnd : (keys p).Nodup) (hm : merge g p = some g₂) :
    wellFormedB g₂ = true ∧
    (sharedOKB g p = true → merge g₂ p = some g₂) := by
  obtain rfl : g₂ = mergedOf g p := merge_eq_some g p g₂ hm
  exact ⟨mergedOf_wellFormed g p hwg,
         fun hsh => mergedOf_idem g p hwp hpnd hsh⟩

/-- Closed-form check of `merge_clean_and_conditional_idempotent` at a
concrete input. -/
theorem merge_clean_and_conditional_idempotent_witness :
    wellFormedB [("X", ⟨["X"], []⟩), ("Y", ⟨[], ["X"]⟩), ("W", ⟨[], []⟩)] = true ∧
    (sharedOKB [("X", ⟨["Y"], []⟩), ("Y", ⟨[], ["X"]⟩)]
        [("X", ⟨["X"], []⟩), ("W", ⟨[], []⟩)] = true →
      merge [("X", ⟨["X"], []⟩), ("Y", ⟨[], ["X"]⟩), ("W", ⟨[], []⟩)]
          [("X", ⟨["X"], []⟩), ("W", ⟨[], []⟩)]
        = some [("X", ⟨["X"], []⟩), ("Y", ⟨[], ["X"]⟩), ("W", ⟨[], []⟩)]) :=
  merge_clean_and_conditional_idempotent
    [("X", ⟨["Y"], []⟩), ("Y", ⟨[], ["X"]⟩)]
    [("X", ⟨["X"], []⟩), ("W", ⟨[], []⟩)]
    [("X", ⟨["X"], []⟩), ("Y", ⟨[], ["X"]⟩), ("W", ⟨[], []⟩)]
    (by decide) (by decide) (by decide) (by decide)

/-- Closed-form check of `traversal_cycle_guard` at a concrete input. -/
theorem traversal_cycle_guard_witness :
    (getDependencies cycleGraph ["A"] "A" true true = (if true then ["A"] else []) ∧
     getDependsOn cycleGraph ["A"] "A" true true = (if true then ["A"] else [])) ∧
    (∀ x ∈ getDependencies cycleGraph [] "A" true false, x ∈ ["A", "B"]) ∧
    (∀ x ∈ getDependsOn cycleGraph [] "A" true false, x ∈ ["A", "B"]) :=
  traversal_cycle_guard cycleGraph ["A"] "A" true true (List.mem_singleton.mpr rfl)

theorem watch_accum (css : List (List String)) :
    ∀ s : WatchState, s.alreadyBuilding = true →
      (css.foldl (fun t cs => watchStep t (.filesChange cs)) s).alreadyBuilding = true ∧
      (css.foldl (fun t cs => watchStep t (.filesChange cs)) s).builds = s.builds ∧
      (css.foldl (fun t cs => watchStep t (.filesChange cs)) s).needRebuild
        = (s.needRebuild || !css.isEmpty) ∧
      (∀ x, x ∈ (css.foldl (fun t cs => watchStep t (.filesChange cs)) s).pendingChanges ↔
        x ∈ s.pendingChanges ∨ ∃ cs ∈ css, x ∈ cs) := by
  induction css with
  | nil => intro s hb; simp [hb]
  | cons cs rest ih =>
    intro s hb
    have hstep : watchStep s (.filesChange cs)
        = { s with needRebuild := true,
                   pendingChanges := cs.foldl addEdge s.pendingChanges } := by
      simp [watchStep, hb]
    simp only [List.foldl_cons, hstep]
    obtain ⟨h1, h2, h3, h4⟩ := ih
      { s with needRebuild := true,
               pendingChanges := cs.foldl addEdge s.pendingChanges } hb
    refine ⟨h1, h2, ?_, ?_⟩
    · rw [h3]; simp
    · intro x
      rw [h4 x]
      simp [mem_foldl_addEdge, or_assoc]

theorem watchStep_buildDone (s : WatchState) (hb : s.alreadyBuilding = true)
    (hnr : s.needRebuild = true) :
    watchStep s .buildDone
      = { alreadyBuilding := true, needRebuild := false, pendingChanges := [],
          builds := s.builds ++ [s.pendingChanges] } := by
  simp [watchStep, hb, hnr]

/-- C7: while a build is in flight, any sequence of change bursts starts
no build — it only sets the `needRebuild` flag and accumulates the
changes, deduplicated by path, into the pending set; when the in-flight
build completes with `needRebuild` set, exactly one additional build is
started, covering exactly the accumulated pending changes (the union of
all bursts that arrived), and the flag and the pending set are cleared —
a further burst while that rebuild is queued only extends the pending
set, it can never queue a second rebuild. -/
theorem watch_loop_single_flight (s s₁ : WatchState) (css : List (List String))
    (hb : s.alreadyBuilding = true)
    (hs₁ : s₁ = css.foldl (fun t cs => watchStep t (.filesChange cs)) s) :
    (s₁.builds = s.builds ∧ s₁.alreadyBuilding = true ∧
     (css ≠ [] → s₁.needRebuild = true) ∧
     (∀ x, x ∈ s₁.pendingChanges ↔ x ∈ s.pendingChanges ∨ ∃ cs ∈ css, x ∈ cs)) ∧
    (s₁.needRebuild = true →
      watchStep s₁ .buildDone
        = { alreadyBuilding := true, needRebuild := false, pendingChanges := [],
            builds := s₁.builds ++ [s₁.pendingChanges] }) := by
  subst hs₁
  obtain ⟨h1, h2, h3, h4⟩ := watch_accum css s hb
  refine ⟨⟨h2, h1, ?_, h4⟩, ?_⟩
  · intro hne
    rw [h3]
    cases css with
    | nil => exact absurd rfl hne
    | cons c t => simp
  · intro hnr
    exact watchStep_buildDone _ h1 hnr

/-- Closed-form check of `watch_loop_single_flight` at a concrete input:
two bursts arrive during a build, with a duplicated path. -/
theorem watch_loop_single_flight_witness :
    ((⟨true, true, ["b", "c"], [["a"]]⟩ : WatchState).builds
        = (⟨true, false, [], [["a"]]⟩ : WatchState).builds ∧
     (⟨true, true, ["b", "c"], [["a"]]⟩ : WatchState).alreadyBuilding = true ∧
     (([["b"], ["c", "b"]] : List (List String)) ≠ [] →
       (⟨true, true, ["b", "c"], [["a"]]⟩ : WatchState).needRebuild = true) ∧
     (∀ x, x ∈ (⟨true, true, ["b", "c"], [["a"]]⟩ : WatchState).pendingChanges ↔
       x ∈ (⟨true, false, [], [["a"]]⟩ : WatchState).pendingChanges ∨
         ∃ cs ∈ ([["b"], ["c", "b"]] : List (List String)), x ∈ cs)) ∧
    ((⟨true, true, ["b", "c"], [["a"]]⟩ : WatchState).needRebuild = true →
      watchStep (⟨true, true, ["b", "c"], [["a"]]⟩ : WatchState) .buildDone
        = { alreadyBuilding := true, needRebuild := false, pendingChanges := [],
            builds := (⟨true, true, ["b", "c"], [["a"]]⟩ : WatchState).builds
              ++ [(⟨true, true, ["b", "c"], [["a"]]⟩ : WatchState).pendingChanges] }) :=
  watch_loop_single_flight ⟨true, false, [], [["a"]]⟩ ⟨true, true, ["b", "c"], [["a"]]⟩
    [["b"], ["c", "b"]] rfl (by decide)

theorem runModulesLoop_eq (throws : String → Bool) (ms : List String) :
    ∀ err ex, runModulesLoop throws ms err ex = (err || ms.any throws, ex ++ ms) := by
  induction ms with
  | nil => intro err ex; simp [runModulesLoop]
  | cons m rest ih =>
    intro err ex
    simp [runModulesLoop, ih, Bool.or_assoc]

/-- C8 counterexample: in the chain where A depends on B and B depends on
C, a change to C schedules the pass C, B, A; module C throws, yet its
dependent B (and A) are still required in the same pass — the loop only
records the error and moves on, so the claim that dependents of a failed
module are not executed is false. -/
theorem failed_module_dependents_still_executed :
    getNewModules chainGraph ["C"] = ["C", "B", "A"] ∧
    "B" ∈ getDependsOn chainGraph [] "C" true true ∧
    (buildPass (fun m => m == "C") ["C", "B", "A"]).error = true ∧
    "B" ∈ (buildPass (fun m => m == "C") ["C", "B", "A"]).executed := by
  refine ⟨getNewModules_chain, ?_, by decide, by decide⟩
  rw [getDependsOn_chain_C]
  decide

/-- C8 (amended): when a module throws during a build pass, the error is
captured rather than propagated — every module of the pass, dependents of
the failed module included, is still executed — the overall build is
marked failed exactly when some module threw, and a failed pass skips the
saving phase. -/
theorem buildPass_captures_error (throws : String → Bool) (modules : List String) :
    (buildPass throws modules).executed = modules ∧
    ((buildPass throws modules).error = true ↔ ∃ m ∈ modules, throws m = true) ∧
    ((buildPass throws modules).error = true →
      (buildPass throws modules).saved = false) := by
  have h := runModulesLoop_eq throws modules false []
  refine ⟨?_, ?_, ?_⟩ <;> simp [buildPass, h, List.any_eq_true]

/-- Closed-form check of `buildPass_captures_error` at a concrete input. -/
theorem buildPass_captures_error_witness :
    (buildPass (fun m => m == "C") ["C", "B"]).executed = ["C", "B"] ∧
    ((buildPass (fun m => m == "C") ["C", "B"]).error = true ↔
      ∃ m ∈ (["C", "B"] : List String), (fun m => m == "C") m = true) ∧
    ((buildPass (fun m => m == "C") ["C", "B"]).error = true →
      (buildPass (fun m => m == "C") ["C", "B"]).saved = false) :=
  buildPass_captures_error (fun m => m == "C") ["C", "B"]

/-- C9: on a persisted cache file that exists and is empty, the cache
loading of `src/commands/build.ts` leaves the in-memory cache
uninitialized (`none`), so the save phase's first cache lookup throws and
the build fails — contradicting the claim that a bad cache file never
fails the build; the older loader in `src/build/buildProject.ts`
initializes the cache on every file state, as the claim demands. -/
theorem cache_load_empty_file (parse : String → Option AssocMap) :
    loadCacheBuild parse (.content "") = none ∧
    (∀ st, (loadCacheProject parse st).isSome = true) := by
  refine ⟨by simp [loadCacheBuild], ?_⟩
  intro st
  cases st with
  | missing => simp [loadCacheProject]
  | unreadable => simp [loadCacheProject]
  | content s =>
    by_cases hs : s = ""
    · simp [loadCacheProject, hs]
    · cases hp : parse s <;> simp [loadCacheProject, hs, hp]

end Sandstone
